import Mathlib

/-!
Verification of the tremor-rs `kv` crate (src/lib.rs): a pattern compiler
turning a template with markers into field/key separator lists, an escape
processor, and a multi-separator splitting engine producing key/value maps.
Strings are modelled as lists of characters.
-/

set_option maxRecDepth 20000

abbrev Str := List Char

/-- Errors of the kv crate, mirroring `enum Error` in src/lib.rs. -/
inductive Error where
  | InvalidPattern : Nat → Error
  | DoubleSeperator : Str → Error
  | InvalidEscape : Char → Error
  | UnterminatedEscape : Error
deriving DecidableEq

/-- Compiled pattern, mirroring `struct Pattern` in src/lib.rs. -/
structure Pattern where
  field_seperators : List Str
  key_seperators : List Str
deriving DecidableEq

instance {ε α : Type} [DecidableEq ε] [DecidableEq α] : DecidableEq (Except ε α) := fun a b =>
  match a, b with
  | .ok x, .ok y =>
    if h : x = y then .isTrue (by rw [h])
    else .isFalse (by intro hc; injection hc; contradiction)
  | .error x, .error y =>
    if h : x = y then .isTrue (by rw [h])
    else .isFalse (by intro hc; injection hc; contradiction)
  | .ok _, .error _ => .isFalse (by intro hc; exact Except.noConfusion hc)
  | .error _, .ok _ => .isFalse (by intro hc; exact Except.noConfusion hc)

/-- The built-in default pattern, mirroring `impl Default for Pattern`. -/
def Pattern.default : Pattern := ⟨[[' ']], [[':']]⟩

/-- The literal marker text of the key placeholder in a template. -/
def KEY : Str := ['%', '{', 'k', 'e', 'y', '}']

/-- The literal marker text of the val placeholder in a template. -/
def VAL : Str := ['%', '{', 'v', 'a', 'l', '}']

/-- The escape decoding table of `handle_escapes`: which character may follow
a backslash, and what it decodes to. -/
def decodeEsc (c : Char) : Option Char :=
  if c = '\\' then some '\\'
  else if c = 'n' then some '\n'
  else if c = 't' then some '\t'
  else if c = 'r' then some '\r'
  else none

/-- Mirror of `handle_escapes` in src/lib.rs: decode backslash escapes,
fail on an invalid escape character or a trailing lone backslash. -/
def handle_escapes : Str → Except Error Str
  | [] => .ok []
  | c :: cs =>
    if c = '\\' then
      match cs with
      | [] => .error .UnterminatedEscape
      | c1 :: rest =>
        match decodeEsc c1 with
        | some d =>
          match handle_escapes rest with
          | .ok r => .ok (d :: r)
          | .error e => .error e
        | none => .error (.InvalidEscape c1)
    else
      match handle_escapes cs with
      | .ok r => .ok (c :: r)
      | .error e => .error e

/-- Index of the first occurrence of `sub` in `l` (Rust `str::find`). -/
def findSub (sub : Str) : Str → Option Nat
  | [] => if sub.isPrefixOf [] then some 0 else none
  | c :: cs =>
    if sub.isPrefixOf (c :: cs) then some 0
    else (findSub sub cs).map (· + 1)

/-- Fueled worker for splitting on one separator: cut at each occurrence of
`sep`, scanning left to right (Rust `str::split` with a literal pattern). -/
def splitGo (sep : Str) : Nat → Str → List Str
  | _, [] => [[]]
  | 0, s => [s]
  | fuel + 1, c :: cs =>
    if sep.isPrefixOf (c :: cs) then
      [] :: splitGo sep fuel ((c :: cs).drop sep.length)
    else
      match splitGo sep fuel cs with
      | [] => [[c]]
      | t :: ts => (c :: t) :: ts

/-- Rust `str::split` with a literal string pattern, as a total function.
An empty pattern matches at every character boundary. -/
def rustSplit (sep s : Str) : List Str :=
  if sep.isEmpty then [] :: (s.map (fun c => [c]) ++ [[]])
  else splitGo sep s.length s

/-- Mirror of `multi_split` in src/lib.rs: split by the first separator, then
split every resulting fragment by the second, and so on, flattening. -/
def multi_split (input : Str) (seperators : List Str) : List Str :=
  seperators.foldl (fun i s => i.flatMap (fun e => rustSplit s e)) [input]

/-- Fueled mirror of the scanning loop of `Pattern::compile` in src/lib.rs:
`rem` is the unscanned suffix of the template, `i` the cursor position in the
whole template, `fs`/`ks` the separator literals collected so far. -/
def scanLoop : Nat → Str → Nat → List Str → List Str →
    Except Error (List Str × List Str)
  | 0, _, _, fs, ks => .ok (fs, ks)
  | fuel + 1, rem, i, fs, ks =>
    if KEY.isPrefixOf rem then
      let rem1 := rem.drop 6
      match findSub VAL rem1 with
      | some i1 =>
        if i1 ≠ 0 then
          match handle_escapes (rem1.take i1) with
          | .error e => .error e
          | .ok sep => scanLoop fuel (rem1.drop (i1 + 6)) (i + 6 + i1 + 6) fs (ks ++ [sep])
        else scanLoop fuel (rem1.drop (i1 + 6)) (i + 6 + i1 + 6) fs ks
      | none => .error (.InvalidPattern (i + 6))
    else
      match findSub KEY rem with
      | some i1 =>
        if i1 ≠ 0 then
          match handle_escapes (rem.take i1) with
          | .error e => .error e
          | .ok sep => scanLoop fuel (rem.drop i1) (i + i1) (fs ++ [sep]) ks
        else scanLoop fuel (rem.drop i1) (i + i1) fs ks
      | none =>
        if rem.isEmpty then .ok (fs, ks)
        else
          match handle_escapes rem with
          | .error e => .error e
          | .ok sep => .ok (fs ++ [sep], ks)

/-- The raw scan of a template: run the compile loop from the start with
enough fuel, collecting the separator literals in order of discovery. -/
def scanRaw (t : Str) : Except Error (List Str × List Str) :=
  scanLoop (t.length + 1) t 0 [] []

/-- Lexicographic (code-point) order on strings used by `Vec::sort` on
`Vec<String>`: byte order of UTF-8, which agrees with code-point order. -/
def lexLe : Str → Str → Bool
  | [], _ => true
  | _ :: _, [] => false
  | a :: as, b :: bs => if a < b then true else if b < a then false else lexLe as bs

/-- Insert one string into a `lexLe`-sorted list, keeping it sorted. -/
def insertSorted (x : Str) : List Str → List Str
  | [] => [x]
  | y :: ys => if lexLe x y then x :: y :: ys else y :: insertSorted x ys

/-- Sort a list of strings by `lexLe` (the unique sorted permutation, as
produced by `Vec::sort`). -/
def sortSeps : List Str → List Str
  | [] => []
  | x :: xs => insertSorted x (sortSeps xs)

/-- Mirror of `Vec::dedup`: remove consecutive equal entries. -/
def dedupAdj : List Str → List Str
  | [] => []
  | [a] => [a]
  | a :: b :: rest => if a = b then dedupAdj (b :: rest) else a :: dedupAdj (b :: rest)

/-- Mirror of the two validation loops of `Pattern::compile`: the first
separator that is a substring of a key separator, of a different field
separator, or vice versa, if any. -/
def findDouble (fs ks : List Str) : Option Str :=
  match fs.find? (fun f => ks.any (fun k => decide (f <:+: k)) ||
      fs.any (fun f2 => decide (f2 ≠ f) && decide (f <:+: f2))) with
  | some f => some f
  | none => ks.find? (fun k => fs.any (fun f => decide (k <:+: f)) ||
      ks.any (fun k2 => decide (k2 ≠ k) && decide (k <:+: k2)))

/-- The scan phase of `Pattern::compile`: the raw scan followed by supplying
defaults, sorting and deduplicating both separator lists. -/
def scanPattern (t : Str) : Except Error (List Str × List Str) :=
  match scanRaw t with
  | .error e => .error e
  | .ok (fs, ks) =>
    let fs1 := if fs.isEmpty then [[' ']] else fs
    let ks1 := if ks.isEmpty then [[':']] else ks
    .ok (dedupAdj (sortSeps fs1), dedupAdj (sortSeps ks1))

/-- Mirror of `Pattern::compile` in src/lib.rs: scan, normalize, then reject
any separator that is a substring of another. -/
def Pattern.compile (t : Str) : Except Error Pattern :=
  match scanPattern t with
  | .error e => .error e
  | .ok (fs, ks) =>
    match findDouble fs ks with
    | some s => .error (.DoubleSeperator s)
    | none => .ok ⟨fs, ks⟩

/-- Worker of `Pattern::run`: iterate over the field tokens, keeping the
map built so far and the `empty` flag; a failing insert aborts with none. -/
def runGo {σ : Type} (ins : σ → Str → Str → Option σ) (keys : List Str) :
    List Str → σ → Bool → Option (σ × Bool)
  | [], r, empty => some (r, empty)
  | field :: rest, r, empty =>
    let kv := multi_split field keys
    if kv.length = 2 then
      match ins r (kv.getD 0 []) (kv.getD 1 []) with
      | none => none
      | some r1 => runGo ins keys rest r1 false
    else runGo ins keys rest r empty

/-- Mirror of `Pattern::run` in src/lib.rs, generic over the output map: an
insert operation that may report failure, and the empty map to start from. -/
def Pattern.run {σ : Type} (ins : σ → Str → Str → Option σ) (init : σ)
    (p : Pattern) (input : Str) : Option σ :=
  match runGo ins p.key_seperators (multi_split input p.field_seperators) init true with
  | none => none
  | some (r, empty) => if empty then none else some r

/-- Concrete association-list map: insert replaces any existing binding of
the key (standard map insert, as the JSON object of the callers). -/
def insertKV (m : List (Str × Str)) (k v : Str) : List (Str × Str) :=
  m.filter (fun e => e.1 ≠ k) ++ [(k, v)]

/-- Look a key up in the association-list map. -/
def lookupKV : List (Str × Str) → Str → Option Str
  | [], _ => none
  | e :: m, k => if e.1 = k then some e.2 else lookupKV m k

/-- `Pattern::run` instantiated at the association-list map, whose insert
never fails. -/
def runKV (p : Pattern) (input : Str) : Option (List (Str × Str)) :=
  Pattern.run (fun m k v => some (insertKV m k v)) [] p input

/-- The key/value pair a field-token list yields per token that splits into
exactly two sub-tokens on the key separators, in token order. -/
def pairsOfFields (keys : List Str) (fields : List Str) : List (Str × Str) :=
  fields.filterMap (fun field =>
    let kv := multi_split field keys
    if kv.length = 2 then some (kv.getD 0 [], kv.getD 1 []) else none)

/-- The key/value pairs a run extracts: one pair per field token that splits
into exactly two sub-tokens on the key separators, in field-token order. -/
def pairsOf (p : Pattern) (input : Str) : List (Str × Str) :=
  pairsOfFields p.key_seperators (multi_split input p.field_seperators)

/-- Insert a list of key/value pairs into a map one by one, left to right,
stopping at the first insert that reports failure. -/
def insertAll {σ : Type} (ins : σ → Str → Str → Option σ) : List (Str × Str) → σ → Option σ
  | [], r => some r
  | kv :: rest, r =>
    match ins r kv.1 kv.2 with
    | none => none
    | some r1 => insertAll ins rest r1

/-- Insert a list of key/value pairs into an association-list map. -/
def insertAllKV (pairs : List (Str × Str)) (m : List (Str × Str)) : List (Str × Str) :=
  pairs.foldl (fun a kv => insertKV a kv.1 kv.2) m

/-- Split a string at every character satisfying `p` (the cut characters are
dropped; n cut characters produce n+1 pieces). -/
def splitPred (p : Char → Bool) : Str → List Str
  | [] => [[]]
  | c :: cs =>
    if p c then [] :: splitPred p cs
    else
      match splitPred p cs with
      | [] => [[c]]
      | t :: ts => (c :: t) :: ts

/-- Relational specification of escape decoding, written from the spec: the
input decomposes into verbatim non-backslash characters and two-character
escape pairs, each decoded by the escape table. -/
inductive EscapesTo : Str → Str → Prop where
  | nil : EscapesTo [] []
  | lit {c : Char} {s r : Str} : c ≠ '\\' → EscapesTo s r → EscapesTo (c :: s) (c :: r)
  | esc {c d : Char} {s r : Str} : decodeEsc c = some d → EscapesTo s r →
      EscapesTo ('\\' :: c :: s) (d :: r)

/-- A key marker occurs at position `p` of the template. -/
def keyAt (t : Str) (p : Nat) : Prop := KEY.isPrefixOf (t.drop p)

/-- A val marker occurs at position `v` of the template. -/
def valAt (t : Str) (v : Nat) : Prop := VAL.isPrefixOf (t.drop v)

/-- A key marker at `p` with no val marker starting at or after `p + 6`. -/
def Unfollowed (t : Str) (p : Nat) : Prop :=
  keyAt t p ∧ ∀ v < t.length, p + 6 ≤ v → ¬valAt t v

/-- `p` is the first key-marker position of the template that has no val
marker anywhere after it. -/
def FirstUnfollowed (t : Str) (p : Nat) : Prop :=
  Unfollowed t p ∧ ∀ q < p, ¬Unfollowed t q

/-- Invariant I3 of the spec: no separator in the list is a substring of a
different separator in the same list. -/
def InvariantI3 (l : List Str) : Prop :=
  ∀ x ∈ l, ∀ y ∈ l, x ≠ y → ¬x <:+: y

instance : DecidablePred (keyAt t) := fun _ => by unfold keyAt; infer_instance

instance : DecidablePred (valAt t) := fun _ => by unfold valAt; infer_instance

instance : ∀ p, Decidable (Unfollowed t p) := fun _ => by unfold Unfollowed; infer_instance

instance : ∀ p, Decidable (FirstUnfollowed t p) := fun _ => by
  unfold FirstUnfollowed; infer_instance

instance : ∀ l, Decidable (InvariantI3 l) := fun l => by
  unfold InvariantI3; infer_instance

/-! Lemmas about the run engine. -/

theorem runGo_spec {σ : Type} (ins : σ → Str → Str → Option σ) (keys : List Str) :
    ∀ (fields : List Str) (r : σ) (e : Bool),
    runGo ins keys fields r e =
      (insertAll ins (pairsOfFields keys fields) r).map
        (fun r1 => (r1, e && (pairsOfFields keys fields).isEmpty)) := by
  intro fields
  induction fields with
  | nil => intro r e; simp [runGo, pairsOfFields, insertAll]
  | cons f rest ih =>
    intro r e
    simp only [runGo, pairsOfFields, List.filterMap_cons]
    by_cases h : (multi_split f keys).length = 2
    · simp only [h, if_pos]
      cases hins : ins r ((multi_split f keys).getD 0 []) ((multi_split f keys).getD 1 []) with
      | none =>
        simp only [List.getD_eq_getElem?_getD] at hins
        simp [insertAll, hins]
      | some r1 =>
        simp only [List.getD_eq_getElem?_getD] at hins
        simp [insertAll, hins, ih r1 false, pairsOfFields]
    · simp only [h, if_neg, ite_false]
      simpa [pairsOfFields] using ih r e

theorem run_eq_insertAll {σ : Type} (ins : σ → Str → Str → Option σ) (init : σ)
    (p : Pattern) (input : Str) :
    Pattern.run ins init p input =
      if pairsOf p input = [] then none else insertAll ins (pairsOf p input) init := by
  unfold Pattern.run
  rw [runGo_spec]
  by_cases h : pairsOf p input = []
  · simp [pairsOf] at h
    simp [pairsOf, h, insertAll, List.isEmpty_iff]
  · simp only [pairsOf] at h ⊢
    rw [if_neg h]
    have hne : (pairsOfFields p.key_seperators (multi_split input p.field_seperators)).isEmpty = false := by
      simpa [List.isEmpty_iff] using h
    rw [hne]
    cases insertAll ins (pairsOfFields p.key_seperators (multi_split input p.field_seperators)) init with
    | none => simp
    | some r => simp

theorem insertAll_KV (pairs : List (Str × Str)) :
    ∀ m, insertAll (fun a k v => some (insertKV a k v)) pairs m = some (insertAllKV pairs m) := by
  induction pairs with
  | nil => intro m; simp [insertAll, insertAllKV]
  | cons pr ps ih => intro m; simp [insertAll, insertAllKV, List.foldl_cons] at ih ⊢; exact ih _

theorem runKV_eq (p : Pattern) (input : Str) :
    runKV p input =
      if pairsOf p input = [] then none else some (insertAllKV (pairsOf p input) []) := by
  unfold runKV
  rw [run_eq_insertAll]
  by_cases h : pairsOf p input = []
  · simp [h]
  · simp [h, insertAll_KV]

theorem lookupKV_append (l1 l2 : List (Str × Str)) (k : Str) :
    lookupKV (l1 ++ l2) k = (lookupKV l1 k).or (lookupKV l2 k) := by
  induction l1 with
  | nil => simp [lookupKV]
  | cons e l1' ih =>
    by_cases he : e.1 = k
    · simp [lookupKV, he]
    · simp only [List.cons_append, lookupKV, if_neg he, ih, List.append_eq]

theorem lookupKV_filter_ne (m : List (Str × Str)) (k k' : Str) (hne : k' ≠ k) :
    lookupKV (m.filter (fun e => e.1 ≠ k)) k' = lookupKV m k' := by
  induction m with
  | nil => simp [lookupKV]
  | cons e m' ih =>
    simp only [decide_not] at ih
    by_cases he : e.1 = k
    · have h2 : ¬(e.1 = k') := fun hc => hne (by rw [← hc, he])
      simp only [List.filter_cons, decide_not, decide_eq_true he, Bool.not_true]
      simp [lookupKV, h2, ih]
    · simp only [List.filter_cons, decide_not, decide_eq_false he, Bool.not_false, ite_true]
      simp only [lookupKV, ih]

theorem lookupKV_filter_self (m : List (Str × Str)) (k : Str) :
    lookupKV (m.filter (fun e => e.1 ≠ k)) k = none := by
  induction m with
  | nil => simp [lookupKV]
  | cons e m' ih =>
    simp only [decide_not] at ih
    by_cases he : e.1 = k
    · simp only [List.filter_cons, decide_not, decide_eq_true he, Bool.not_true]
      simp [ih]
    · simp only [List.filter_cons, decide_not, decide_eq_false he, Bool.not_false, ite_true]
      simp only [lookupKV, if_neg he, ih]

theorem lookupKV_insertKV (m : List (Str × Str)) (k v k' : Str) :
    lookupKV (insertKV m k v) k' = if k' = k then some v else lookupKV m k' := by
  unfold insertKV
  rw [lookupKV_append]
  by_cases h : k' = k
  · subst h
    rw [lookupKV_filter_self]
    simp [lookupKV]
  · rw [lookupKV_filter_ne m k k' h]
    have h2 : lookupKV [(k, v)] k' = none := by
      simp only [lookupKV]
      rw [if_neg (fun hc => h hc.symm)]
    rw [h2]
    cases lookupKV m k' <;> simp [h]

theorem getLast?_cons_or {α : Type} (a : α) (l : List α) :
    (a :: l).getLast? = l.getLast?.or (some a) := by
  cases l with
  | nil => simp
  | cons b l' =>
    rw [List.getLast?_cons_cons]
    cases h : (b :: l').getLast? with
    | none => simp [List.getLast?_eq_none_iff] at h
    | some x => simp

theorem option_map_or {α β : Type} (f : α → β) (a b : Option α) :
    (a.or b).map f = (a.map f).or (b.map f) := by
  cases a <;> simp

theorem lookup_insertAllKV (pairs : List (Str × Str)) :
    ∀ (m : List (Str × Str)) (k : Str),
    lookupKV (insertAllKV pairs m) k =
      ((pairs.filter (fun e => e.1 = k)).getLast?.map (fun e => e.2)).or (lookupKV m k) := by
  induction pairs with
  | nil => intro m k; simp [insertAllKV]
  | cons pr ps ih =>
    intro m k
    have hstep : insertAllKV (pr :: ps) m = insertAllKV ps (insertKV m pr.1 pr.2) := by
      simp [insertAllKV, List.foldl_cons]
    rw [hstep, ih, lookupKV_insertKV]
    by_cases h : pr.1 = k
    · have hif : (if k = pr.1 then some pr.2 else lookupKV m k) = some pr.2 := if_pos h.symm
      rw [hif]
      have hfc : (pr :: ps).filter (fun e => e.1 = k) = pr :: ps.filter (fun e => e.1 = k) := by
        simp [List.filter_cons, h]
      rw [hfc, getLast?_cons_or, option_map_or]
      cases (ps.filter (fun e => e.1 = k)).getLast?.map (fun e => e.2) <;> simp
    · have hif : (if k = pr.1 then some pr.2 else lookupKV m k) = lookupKV m k :=
        if_neg (fun hc => h hc.symm)
      rw [hif]
      have hfc : (pr :: ps).filter (fun e => e.1 = k) = ps.filter (fun e => e.1 = k) := by
        simp [List.filter_cons, h]
      rw [hfc]

/-- C2: run inserts an entry exactly for the field tokens that split into
exactly two sub-tokens on the key separators (collected in order by
`pairsOf`), and it returns none if and only if no field token contributed a
pair or a map insertion reported failure. -/
theorem run_characterization (σ : Type) (ins : σ → Str → Str → Option σ) (init : σ)
    (p : Pattern) (input : Str) :
    (Pattern.run ins init p input =
      if pairsOf p input = [] then none else insertAll ins (pairsOf p input) init) ∧
    (Pattern.run ins init p input = none ↔
      pairsOf p input = [] ∨ insertAll ins (pairsOf p input) init = none) := by
  refine ⟨run_eq_insertAll ins init p input, ?_⟩
  rw [run_eq_insertAll ins init p input]
  by_cases h : pairsOf p input = []
  · simp [h]
  · simp [h]

/-- C8: whenever run returns a mapping, each key is bound to the value of
the last extracted key/value pair carrying that key, so on duplicate keys
the later field token in scan order wins. -/
theorem run_duplicate_key_overwrite (p : Pattern) (input : Str)
    (m : List (Str × Str)) (k : Str) (h : runKV p input = some m) :
    lookupKV m k = ((pairsOf p input).filter (fun e => e.1 = k)).getLast?.map (fun e => e.2) := by
  rw [runKV_eq] at h
  by_cases hp : pairsOf p input = []
  · rw [if_pos hp] at h
    exact absurd h (by simp)
  · rw [if_neg hp] at h
    injection h with h
    rw [← h, lookup_insertAllKV]
    simp [lookupKV]

/-- Witness for C8 at a concrete pattern and input with a duplicated key:
the later pair wins. -/
theorem run_duplicate_key_overwrite_witness :
    runKV ⟨[[' ']], [['=']]⟩ "a=1 a=2".data = some [(['a'], ['2'])] ∧
    lookupKV [(['a'], ['2'])] ['a'] =
      ((pairsOf ⟨[[' ']], [['=']]⟩ "a=1 a=2".data).filter
        (fun e => e.1 = ['a'])).getLast?.map (fun e => e.2) :=
  ⟨by decide, run_duplicate_key_overwrite _ _ _ _ (by decide)⟩

/-- C9: empty strings are legal keys and values: the pattern compiled from
the key-equals-val template applied to the input consisting of one equals
sign yields a present mapping with a single pair of empty key and value. -/
theorem run_empty_key_value :
    Pattern.compile (KEY ++ ['='] ++ VAL) = .ok ⟨[[' ']], [['=']]⟩ ∧
    multi_split ['='] [['=']] = [[], []] ∧
    runKV ⟨[[' ']], [['=']]⟩ ['='] = some [([], [])] := by decide

/-- C10: compiling the empty template succeeds: the scan collects no
separators, both defaults are supplied, and the result is the built-in
default pattern. -/
theorem compile_empty_template :
    scanRaw [] = .ok ([], []) ∧ Pattern.compile [] = .ok Pattern.default := by decide

/-! Lemmas about the compile pipeline after the raw scan. -/

theorem compile_of_scanRaw {t : Str} {fs ks : List Str} (h : scanRaw t = .ok (fs, ks)) :
    Pattern.compile t =
      match findDouble (dedupAdj (sortSeps (if fs.isEmpty then [[' ']] else fs)))
          (dedupAdj (sortSeps (if ks.isEmpty then [[':']] else ks))) with
      | some s => .error (.DoubleSeperator s)
      | none => .ok ⟨dedupAdj (sortSeps (if fs.isEmpty then [[' ']] else fs)),
          dedupAdj (sortSeps (if ks.isEmpty then [[':']] else ks))⟩ := by
  unfold Pattern.compile scanPattern
  rw [h]

/-- C6: compiling the key-colon-val template yields exactly the built-in
default pattern, whose separator lists are the single space and the single
colon; and whenever the raw scan of any template collects no field (or key)
separators and compilation succeeds, the compiled field (or key) separator
list is exactly the default singleton. -/
theorem compile_default_equivalence :
    (Pattern.compile (KEY ++ [':'] ++ VAL) = .ok Pattern.default ∧
      Pattern.default = ⟨[[' ']], [[':']]⟩) ∧
    (∀ t fs ks p, scanRaw t = .ok (fs, ks) → Pattern.compile t = .ok p →
      (fs = [] → p.field_seperators = [[' ']]) ∧ (ks = [] → p.key_seperators = [[':']])) := by
  refine ⟨⟨by decide, by decide⟩, ?_⟩
  intro t fs ks p hscan hcomp
  rw [compile_of_scanRaw hscan] at hcomp
  constructor
  · intro hfs
    subst hfs
    revert hcomp
    cases hfd : findDouble (dedupAdj (sortSeps (if List.isEmpty [] = true then [[' ']] else [])))
        (dedupAdj (sortSeps (if ks.isEmpty then [[':']] else ks))) with
    | some s => intro hcomp; exact absurd hcomp (by simp)
    | none =>
      intro hcomp
      injection hcomp with hcomp
      rw [← hcomp]
      rfl
  · intro hks
    subst hks
    revert hcomp
    cases hfd : findDouble (dedupAdj (sortSeps (if fs.isEmpty then [[' ']] else fs)))
        (dedupAdj (sortSeps (if List.isEmpty [] = true then [[':']] else []))) with
    | some s => intro hcomp; exact absurd hcomp (by simp)
    | none =>
      intro hcomp
      injection hcomp with hcomp
      rw [← hcomp]
      rfl

/-- Witness for C6 at the empty template: the raw scan collects nothing,
compilation succeeds, and both defaults appear. -/
theorem compile_default_equivalence_witness :
    scanRaw [] = .ok ([], []) ∧ Pattern.compile [] = .ok Pattern.default ∧
    Pattern.default.field_seperators = [[' ']] ∧ Pattern.default.key_seperators = [[':']] :=
  ⟨by decide, by decide,
    (compile_default_equivalence.2 [] [] [] Pattern.default (by decide) (by decide)).1 rfl,
    (compile_default_equivalence.2 [] [] [] Pattern.default (by decide) (by decide)).2 rfl⟩

/-! Escape-processor correctness. -/

theorem escInd (P : Str → Prop) (h0 : P []) (h1 : P ['\\'])
    (h2 : ∀ c rest, P rest → P ('\\' :: c :: rest))
    (h3 : ∀ c rest, c ≠ '\\' → P rest → P (c :: rest)) : ∀ s, P s := by
  have key : ∀ n s, List.length s ≤ n → P s := by
    intro n
    induction n with
    | zero =>
      intro s h
      cases s with
      | nil => exact h0
      | cons c cs => simp at h
    | succ n ih =>
      intro s h
      cases s with
      | nil => exact h0
      | cons c cs =>
        by_cases hc : c = '\\'
        · subst hc
          cases cs with
          | nil => exact h1
          | cons c1 rest =>
            refine h2 c1 rest (ih rest ?_)
            simp at h
            omega
        · refine h3 c cs hc (ih cs ?_)
          simp at h
          omega
  intro s
  exact key s.length s le_rfl

theorem handle_escapes_lone_bs : handle_escapes ['\\'] = .error .UnterminatedEscape := by
  simp [handle_escapes]

theorem handle_escapes_esc_ok {c1 d : Char} {rest r : Str}
    (hd : decodeEsc c1 = some d) (hr : handle_escapes rest = .ok r) :
    handle_escapes ('\\' :: c1 :: rest) = .ok (d :: r) := by
  simp [handle_escapes, hd, hr]

theorem handle_escapes_esc_err {c1 d : Char} {rest : Str} {e : Error}
    (hd : decodeEsc c1 = some d) (hr : handle_escapes rest = .error e) :
    handle_escapes ('\\' :: c1 :: rest) = .error e := by
  simp [handle_escapes, hd, hr]

theorem handle_escapes_invalid1 {c1 : Char} (rest : Str) (hd : decodeEsc c1 = none) :
    handle_escapes ('\\' :: c1 :: rest) = .error (.InvalidEscape c1) := by
  simp [handle_escapes, hd]

theorem handle_escapes_lit_ok {c : Char} {cs r : Str} (hc : c ≠ '\\')
    (hr : handle_escapes cs = .ok r) :
    handle_escapes (c :: cs) = .ok (c :: r) := by
  rw [handle_escapes.eq_def]
  simp [hc, hr]

theorem handle_escapes_lit_err {c : Char} {cs : Str} {e : Error} (hc : c ≠ '\\')
    (hr : handle_escapes cs = .error e) :
    handle_escapes (c :: cs) = .error e := by
  rw [handle_escapes.eq_def]
  simp [hc, hr]

theorem handle_escapes_of_escapesTo {s r : Str} (h : EscapesTo s r) :
    handle_escapes s = .ok r := by
  induction h with
  | nil => rfl
  | lit hc _ ih => exact handle_escapes_lit_ok hc ih
  | esc hd _ ih => exact handle_escapes_esc_ok hd ih

theorem escapesTo_of_handle_escapes :
    ∀ s, ∀ r, handle_escapes s = .ok r → EscapesTo s r := by
  refine escInd (fun s => ∀ r, handle_escapes s = .ok r → EscapesTo s r) ?_ ?_ ?_ ?_
  · intro r h
    injection h with h
    rw [← h]
    exact .nil
  · intro r h
    rw [handle_escapes_lone_bs] at h
    exact absurd h (by simp)
  · intro c rest ih r h
    cases hd : decodeEsc c with
    | none =>
      rw [handle_escapes_invalid1 rest hd] at h
      exact absurd h (by simp)
    | some d =>
      cases hrec : handle_escapes rest with
      | error e =>
        rw [handle_escapes_esc_err hd hrec] at h
        exact absurd h (by simp)
      | ok r1 =>
        rw [handle_escapes_esc_ok hd hrec] at h
        injection h with h
        rw [← h]
        exact .esc hd (ih r1 hrec)
  · intro c rest hc ih r h
    cases hrec : handle_escapes rest with
    | error e =>
      rw [handle_escapes_lit_err hc hrec] at h
      exact absurd h (by simp)
    | ok r1 =>
      rw [handle_escapes_lit_ok hc hrec] at h
      injection h with h
      rw [← h]
      exact .lit hc (ih r1 hrec)

theorem handle_escapes_unterminated_of :
    ∀ s, handle_escapes s = .error .UnterminatedEscape →
      ∃ p r, EscapesTo p r ∧ s = p ++ ['\\'] := by
  refine escInd _ ?_ ?_ ?_ ?_
  · intro h
    exact absurd h (by simp [handle_escapes])
  · intro _
    exact ⟨[], [], .nil, rfl⟩
  · intro c rest ih h
    cases hd : decodeEsc c with
    | none =>
      rw [handle_escapes_invalid1 rest hd] at h
      exact absurd h (by simp)
    | some d =>
      cases hrec : handle_escapes rest with
      | ok r1 =>
        rw [handle_escapes_esc_ok hd hrec] at h
        exact absurd h (by simp)
      | error e =>
        rw [handle_escapes_esc_err hd hrec] at h
        injection h with h
        obtain ⟨p, r, hpr, hs⟩ := ih (by rw [hrec, h])
        exact ⟨'\\' :: c :: p, d :: r, .esc hd hpr, by rw [hs]; rfl⟩
  · intro c rest hc ih h
    cases hrec : handle_escapes rest with
    | ok r1 =>
      rw [handle_escapes_lit_ok hc hrec] at h
      exact absurd h (by simp)
    | error e =>
      rw [handle_escapes_lit_err hc hrec] at h
      injection h with h
      obtain ⟨p, r, hpr, hs⟩ := ih (by rw [hrec, h])
      exact ⟨c :: p, c :: r, .lit hc hpr, by rw [hs]; rfl⟩

theorem handle_escapes_unterminated_to {p r : Str} (h : EscapesTo p r) :
    handle_escapes (p ++ ['\\']) = .error .UnterminatedEscape := by
  induction h with
  | nil => rfl
  | lit hc _ ih =>
    rw [List.cons_append]
    exact handle_escapes_lit_err hc ih
  | esc hd _ ih =>
    rw [List.cons_append, List.cons_append]
    exact handle_escapes_esc_err hd ih

theorem handle_escapes_invalid_of (c0 : Char) :
    ∀ s, handle_escapes s = .error (.InvalidEscape c0) →
      ∃ p r rest, EscapesTo p r ∧ decodeEsc c0 = none ∧ s = p ++ '\\' :: c0 :: rest := by
  refine escInd _ ?_ ?_ ?_ ?_
  · intro h
    exact absurd h (by simp [handle_escapes])
  · intro h
    rw [handle_escapes_lone_bs] at h
    injection h with h
    exact absurd h (by simp)
  · intro c rest ih h
    cases hd : decodeEsc c with
    | none =>
      rw [handle_escapes_invalid1 rest hd] at h
      injection h with h
      injection h with h
      subst h
      exact ⟨[], [], rest, .nil, hd, rfl⟩
    | some d =>
      cases hrec : handle_escapes rest with
      | ok r1 =>
        rw [handle_escapes_esc_ok hd hrec] at h
        exact absurd h (by simp)
      | error e =>
        rw [handle_escapes_esc_err hd hrec] at h
        injection h with h
        obtain ⟨p, r, rest1, hpr, hdec, hs⟩ := ih (by rw [hrec, h])
        exact ⟨'\\' :: c :: p, d :: r, rest1, .esc hd hpr, hdec, by rw [hs]; rfl⟩
  · intro c rest hc ih h
    cases hrec : handle_escapes rest with
    | ok r1 =>
      rw [handle_escapes_lit_ok hc hrec] at h
      exact absurd h (by simp)
    | error e =>
      rw [handle_escapes_lit_err hc hrec] at h
      injection h with h
      obtain ⟨p, r, rest1, hpr, hdec, hs⟩ := ih (by rw [hrec, h])
      exact ⟨c :: p, c :: r, rest1, .lit hc hpr, hdec, by rw [hs]; rfl⟩

theorem handle_escapes_invalid_to {p r : Str} (h : EscapesTo p r) (c0 : Char) (rest : Str)
    (hdec : decodeEsc c0 = none) :
    handle_escapes (p ++ '\\' :: c0 :: rest) = .error (.InvalidEscape c0) := by
  induction h with
  | nil =>
    rw [List.nil_append]
    exact handle_escapes_invalid1 rest hdec
  | lit hc _ ih =>
    rw [List.cons_append]
    exact handle_escapes_lit_err hc ih
  | esc hd _ ih =>
    rw [List.cons_append, List.cons_append]
    exact handle_escapes_esc_err hd ih

/-- C4: the escape processor succeeds exactly on strings decomposing into
verbatim non-backslash characters and valid escape pairs, decoding the pairs
by the table backslash-backslash, n-newline, t-tab, r-carriage-return; it
reports InvalidEscape c exactly when a well-formed prefix is followed by a
backslash and a character c outside the table, and UnterminatedEscape
exactly when the string is a well-formed prefix ending in a lone backslash. -/
theorem handle_escapes_correct (s : Str) :
    (∀ r, handle_escapes s = .ok r ↔ EscapesTo s r) ∧
    (handle_escapes s = .error .UnterminatedEscape ↔
      ∃ p r, EscapesTo p r ∧ s = p ++ ['\\']) ∧
    (∀ c, handle_escapes s = .error (.InvalidEscape c) ↔
      ∃ p r rest, EscapesTo p r ∧ decodeEsc c = none ∧ s = p ++ '\\' :: c :: rest) ∧
    (decodeEsc '\\' = some '\\' ∧ decodeEsc 'n' = some '\n' ∧
      decodeEsc 't' = some '\t' ∧ decodeEsc 'r' = some '\r' ∧
      ∀ c, decodeEsc c = none ↔ (c ≠ '\\' ∧ c ≠ 'n' ∧ c ≠ 't' ∧ c ≠ 'r')) := by
  refine ⟨?_, ?_, ?_, by decide, by decide, by decide, by decide, ?_⟩
  · intro r
    exact ⟨escapesTo_of_handle_escapes s r, handle_escapes_of_escapesTo⟩
  · constructor
    · exact handle_escapes_unterminated_of s
    · rintro ⟨p, r, hpr, hs⟩
      rw [hs]
      exact handle_escapes_unterminated_to hpr
  · intro c
    constructor
    · exact handle_escapes_invalid_of c s
    · rintro ⟨p, r, rest, hpr, hdec, hs⟩
      rw [hs]
      exact handle_escapes_invalid_to hpr c rest hdec
  · intro c
    unfold decodeEsc
    by_cases h1 : c = '\\'
    · simp [h1]
    · by_cases h2 : c = 'n'
      · simp [h1, h2]
      · by_cases h3 : c = 't'
        · simp [h1, h2, h3]
        · by_cases h4 : c = 'r'
          · simp [h1, h2, h3, h4]
          · simp [h1, h2, h3, h4]

/-! Stepping and search lemmas for the compile scan. -/

theorem scanLoop_succ (fuel : Nat) (rem : Str) (i : Nat) (fs ks : List Str) :
    scanLoop (fuel + 1) rem i fs ks =
      if KEY.isPrefixOf rem then
        match findSub VAL (rem.drop 6) with
        | some i1 =>
          if i1 ≠ 0 then
            match handle_escapes ((rem.drop 6).take i1) with
            | .error e => .error e
            | .ok sep =>
              scanLoop fuel ((rem.drop 6).drop (i1 + 6)) (i + 6 + i1 + 6) fs (ks ++ [sep])
          else scanLoop fuel ((rem.drop 6).drop (i1 + 6)) (i + 6 + i1 + 6) fs ks
        | none => .error (.InvalidPattern (i + 6))
      else
        match findSub KEY rem with
        | some i1 =>
          if i1 ≠ 0 then
            match handle_escapes (rem.take i1) with
            | .error e => .error e
            | .ok sep => scanLoop fuel (rem.drop i1) (i + i1) (fs ++ [sep]) ks
          else scanLoop fuel (rem.drop i1) (i + i1) fs ks
        | none =>
          if rem.isEmpty then .ok (fs, ks)
          else
            match handle_escapes rem with
            | .error e => .error e
            | .ok sep => .ok (fs ++ [sep], ks) := by
  rfl

theorem findSub_some_prefix {sub l : Str} {k : Nat} (h : findSub sub l = some k) :
    sub.isPrefixOf (l.drop k) := by
  induction l generalizing k with
  | nil =>
    unfold findSub at h
    by_cases hp : sub.isPrefixOf []
    · rw [if_pos hp] at h
      injection h with h
      rw [← h]
      exact hp
    · rw [if_neg hp] at h
      exact absurd h (by simp)
  | cons c cs ih =>
    unfold findSub at h
    by_cases hp : sub.isPrefixOf (c :: cs)
    · rw [if_pos hp] at h
      injection h with h
      rw [← h]
      exact hp
    · rw [if_neg hp] at h
      revert h
      cases hf : findSub sub cs with
      | none => intro h; exact absurd h (by simp)
      | some k1 =>
        intro h
        injection h with h
        rw [← h]
        exact ih hf

theorem findSub_some_min {sub l : Str} {k : Nat} (h : findSub sub l = some k) :
    ∀ j < k, ¬sub.isPrefixOf (l.drop j) := by
  induction l generalizing k with
  | nil =>
    unfold findSub at h
    by_cases hp : sub.isPrefixOf []
    · rw [if_pos hp] at h
      injection h with h
      intro j hj
      omega
    · rw [if_neg hp] at h
      exact absurd h (by simp)
  | cons c cs ih =>
    unfold findSub at h
    by_cases hp : sub.isPrefixOf (c :: cs)
    · rw [if_pos hp] at h
      injection h with h
      intro j hj
      omega
    · rw [if_neg hp] at h
      revert h
      cases hf : findSub sub cs with
      | none => intro h; exact absurd h (by simp)
      | some k1 =>
        intro h
        have hk : k1 + 1 = k := by simpa using h
        intro j hj
        cases j with
        | zero => simpa using hp
        | succ j1 =>
          rw [List.drop_succ_cons]
          exact ih hf j1 (by omega)

theorem findSub_none {sub l : Str} (h : findSub sub l = none) :
    ∀ j, ¬sub.isPrefixOf (l.drop j) := by
  induction l with
  | nil =>
    unfold findSub at h
    by_cases hp : sub.isPrefixOf []
    · rw [if_pos hp] at h
      exact absurd h (by simp)
    · intro j
      rw [List.drop_nil]
      exact hp
  | cons c cs ih =>
    unfold findSub at h
    by_cases hp : sub.isPrefixOf (c :: cs)
    · rw [if_pos hp] at h
      exact absurd h (by simp)
    · rw [if_neg hp] at h
      intro j
      cases j with
      | zero => simpa using hp
      | succ j1 =>
        rw [List.drop_succ_cons]
        revert h
        cases hf : findSub sub cs with
        | none => intro _; exact ih hf j1
        | some k1 => intro h; exact absurd h (by simp)

theorem findSub_ne_nil {sub l : Str} {k : Nat} (hsub : sub ≠ []) (h : findSub sub l = some k) :
    l ≠ [] := by
  intro hl
  subst hl
  unfold findSub at h
  have hp : sub.isPrefixOf ([] : Str) = false := by
    cases sub with
    | nil => exact absurd rfl hsub
    | cons c cs => rfl
  rw [hp] at h
  exact absurd h (by simp)

theorem handle_escapes_ok_ne_nil {s r : Str} (hs : s ≠ []) (h : handle_escapes s = .ok r) :
    r ≠ [] := by
  cases s with
  | nil => exact absurd rfl hs
  | cons c cs =>
    by_cases hc : c = '\\'
    · subst hc
      cases cs with
      | nil =>
        rw [handle_escapes_lone_bs] at h
        exact absurd h (by simp)
      | cons c1 rest =>
        cases hd : decodeEsc c1 with
        | none =>
          rw [handle_escapes_invalid1 rest hd] at h
          exact absurd h (by simp)
        | some d =>
          cases hrec : handle_escapes rest with
          | error e =>
            rw [handle_escapes_esc_err hd hrec] at h
            exact absurd h (by simp)
          | ok r1 =>
            rw [handle_escapes_esc_ok hd hrec] at h
            injection h with h
            rw [← h]
            simp
    · cases hrec : handle_escapes cs with
      | error e =>
        rw [handle_escapes_lit_err hc hrec] at h
        exact absurd h (by simp)
      | ok r1 =>
        rw [handle_escapes_lit_ok hc hrec] at h
        injection h with h
        rw [← h]
        simp

/-! Order theory for the separator sort. -/

theorem lexLe_total : ∀ a b : Str, lexLe a b = true ∨ lexLe b a = true := by
  intro a
  induction a with
  | nil => intro b; left; simp [lexLe]
  | cons x as ih =>
    intro b
    cases b with
    | nil => right; simp [lexLe]
    | cons y bs =>
      rcases lt_trichotomy x y with hlt | heq | hgt
      · left; simp [lexLe, hlt]
      · subst heq
        rcases ih bs with h | h
        · left; simp [lexLe, h]
        · right; simp [lexLe, h]
      · right; simp [lexLe, hgt]

theorem lexLe_trans : ∀ a b c : Str, lexLe a b = true → lexLe b c = true → lexLe a c = true := by
  intro a
  induction a with
  | nil => intros; simp [lexLe]
  | cons x as ih =>
    intro b c hab hbc
    cases b with
    | nil => simp [lexLe] at hab
    | cons y bs =>
      cases c with
      | nil => simp [lexLe] at hbc
      | cons z cs =>
        rcases lt_trichotomy x y with hxy | hxy | hxy
        · rcases lt_trichotomy y z with hyz | hyz | hyz
          · have hxz : x < z := lt_trans hxy hyz
            simp [lexLe, hxz]
          · subst hyz
            simp [lexLe, hxy]
          · simp [lexLe, asymm hyz, hyz] at hbc
        · subst hxy
          rcases lt_trichotomy x z with hxz | hxz | hxz
          · simp [lexLe, hxz]
          · subst hxz
            simp only [lexLe, lt_self_iff_false, if_false] at hab hbc ⊢
            exact ih bs cs hab hbc
          · simp [lexLe, asymm hxz, hxz] at hbc
        · simp [lexLe, asymm hxy, hxy] at hab

theorem lexLe_antisymm : ∀ a b : Str, lexLe a b = true → lexLe b a = true → a = b := by
  intro a
  induction a with
  | nil =>
    intro b _ hba
    cases b with
    | nil => rfl
    | cons y bs => simp [lexLe] at hba
  | cons x as ih =>
    intro b hab hba
    cases b with
    | nil => simp [lexLe] at hab
    | cons y bs =>
      rcases lt_trichotomy x y with hxy | hxy | hxy
      · simp [lexLe, asymm hxy, hxy] at hba
      · subst hxy
        simp only [lexLe, lt_self_iff_false, if_false] at hab hba
        rw [ih bs hab hba]
      · simp [lexLe, asymm hxy, hxy] at hab

theorem mem_insertSorted (x : Str) :
    ∀ (l : List Str) (y : Str), y ∈ insertSorted x l ↔ y = x ∨ y ∈ l := by
  intro l
  induction l with
  | nil => intro y; simp [insertSorted]
  | cons z zs ih =>
    intro y
    unfold insertSorted
    by_cases h : lexLe x z = true
    · rw [if_pos h]
      simp
    · rw [if_neg h]
      simp [ih]
      tauto

theorem insertSorted_ne_nil (x : Str) (l : List Str) : insertSorted x l ≠ [] := by
  cases l with
  | nil => simp [insertSorted]
  | cons z zs =>
    by_cases h : lexLe x z = true
    · simp [insertSorted, h]
    · simp [insertSorted, h]

theorem pairwise_insertSorted (x : Str) : ∀ l : List Str,
    l.Pairwise (fun a b => lexLe a b = true) →
    (insertSorted x l).Pairwise (fun a b => lexLe a b = true) := by
  intro l
  induction l with
  | nil => intro _; simp [insertSorted]
  | cons z zs ih =>
    intro hp
    rw [List.pairwise_cons] at hp
    obtain ⟨hz, hzs⟩ := hp
    unfold insertSorted
    by_cases h : lexLe x z = true
    · rw [if_pos h]
      rw [List.pairwise_cons]
      refine ⟨?_, List.pairwise_cons.mpr ⟨hz, hzs⟩⟩
      intro b hb
      rcases List.mem_cons.mp hb with heq | hb2
      · rw [heq]; exact h
      · exact lexLe_trans x z b h (hz b hb2)
    · rw [if_neg h]
      rw [List.pairwise_cons]
      constructor
      · intro b hb
        rcases (mem_insertSorted x zs b).mp hb with heq | hb2
        · rcases lexLe_total x z with h1 | h1
          · exact absurd h1 h
          · rw [heq]; exact h1
        · exact hz b hb2
      · exact ih hzs

theorem pairwise_sortSeps : ∀ l : List Str,
    (sortSeps l).Pairwise (fun a b => lexLe a b = true) := by
  intro l
  induction l with
  | nil => simp [sortSeps]
  | cons x xs ih =>
    unfold sortSeps
    exact pairwise_insertSorted x (sortSeps xs) ih

theorem mem_sortSeps : ∀ (l : List Str) (y : Str), y ∈ sortSeps l ↔ y ∈ l := by
  intro l
  induction l with
  | nil => intro y; simp [sortSeps]
  | cons x xs ih =>
    intro y
    unfold sortSeps
    rw [mem_insertSorted x (sortSeps xs) y, ih y]
    simp

theorem sortSeps_ne_nil (l : List Str) (h : l ≠ []) : sortSeps l ≠ [] := by
  cases l with
  | nil => exact absurd rfl h
  | cons x xs =>
    unfold sortSeps
    exact insertSorted_ne_nil x (sortSeps xs)

theorem mem_dedupAdj : ∀ (l : List Str) (y : Str), y ∈ dedupAdj l ↔ y ∈ l := by
  intro l
  induction l using dedupAdj.induct with
  | case1 => intro y; simp [dedupAdj]
  | case2 a => intro y; simp [dedupAdj]
  | case3 b rest ih =>
    intro y
    unfold dedupAdj
    rw [if_pos rfl, ih y]
    simp
  | case4 a b rest hne ih =>
    intro y
    unfold dedupAdj
    rw [if_neg hne]
    simp [ih y]

theorem dedupAdj_ne_nil : ∀ l : List Str, l ≠ [] → dedupAdj l ≠ [] := by
  intro l
  induction l using dedupAdj.induct with
  | case1 => intro h; exact absurd rfl h
  | case2 a => intro _; simp [dedupAdj]
  | case3 b rest ih =>
    intro _
    unfold dedupAdj
    rw [if_pos rfl]
    exact ih (by simp)
  | case4 a b rest hne ih =>
    intro _
    unfold dedupAdj
    rw [if_neg hne]
    simp

theorem pairwise_dedupAdj : ∀ l : List Str,
    l.Pairwise (fun a b => lexLe a b = true) →
    (dedupAdj l).Pairwise (fun a b => lexLe a b = true ∧ a ≠ b) := by
  intro l
  induction l using dedupAdj.induct with
  | case1 => intro _; simp [dedupAdj]
  | case2 a => intro _; simp [dedupAdj]
  | case3 b rest ih =>
    intro hp
    unfold dedupAdj
    rw [if_pos rfl]
    exact ih (List.pairwise_cons.mp hp).2
  | case4 a b rest hne ih =>
    intro hp
    rw [List.pairwise_cons] at hp
    obtain ⟨hp1, hp2⟩ := hp
    have hp2' := List.pairwise_cons.mp hp2
    unfold dedupAdj
    rw [if_neg hne]
    rw [List.pairwise_cons]
    constructor
    · intro y hy
      have hy' : y ∈ b :: rest := (mem_dedupAdj (b :: rest) y).mp hy
      refine ⟨hp1 y hy', ?_⟩
      intro hay
      rcases List.mem_cons.mp hy' with heq2 | hyrest
      · exact hne (hay.trans heq2)
      · have h1 : lexLe b y = true := hp2'.1 y hyrest
        have h2 : lexLe a b = true := hp1 b (by simp)
        rw [← hay] at h1
        exact hne (lexLe_antisymm a b h2 h1)
    · exact ih hp2

theorem take_ne_nil {l : Str} {n : Nat} (hn : n ≠ 0) (hl : l ≠ []) : l.take n ≠ [] := by
  cases l with
  | nil => exact absurd rfl hl
  | cons c cs =>
    cases n with
    | zero => exact absurd rfl hn
    | succ n1 => simp

theorem scanLoop_ne_nil :
    ∀ (fuel : Nat) (rem : Str) (i : Nat) (fs ks fs1 ks1 : List Str),
      (∀ s ∈ fs, s ≠ ([] : Str)) → (∀ s ∈ ks, s ≠ ([] : Str)) →
      scanLoop fuel rem i fs ks = .ok (fs1, ks1) →
      (∀ s ∈ fs1, s ≠ ([] : Str)) ∧ (∀ s ∈ ks1, s ≠ ([] : Str)) := by
  intro fuel
  induction fuel with
  | zero =>
    intro rem i fs ks fs1 ks1 hfs hks h
    have h0 : scanLoop 0 rem i fs ks = .ok (fs, ks) := rfl
    rw [h0] at h
    injection h with h
    injection h with h1 h2
    subst h1
    subst h2
    exact ⟨hfs, hks⟩
  | succ fuel ih =>
    intro rem i fs ks fs1 ks1 hfs hks h
    rw [scanLoop_succ] at h
    by_cases hkp : KEY.isPrefixOf rem
    · rw [if_pos hkp] at h
      revert h
      cases hfv : findSub VAL (rem.drop 6) with
      | none => intro h; exact absurd h (by simp)
      | some i1 =>
        simp only []
        by_cases hi1 : i1 ≠ 0
        · rw [if_pos hi1]
          cases hesc : handle_escapes ((rem.drop 6).take i1) with
          | error e => intro h; exact absurd h (by simp)
          | ok sep =>
            intro h
            refine ih _ _ _ _ _ _ hfs ?_ h
            intro s hs
            rcases List.mem_append.mp hs with h1 | h2
            · exact hks s h1
            · have hsep : s = sep := by simpa using h2
              subst hsep
              refine handle_escapes_ok_ne_nil ?_ hesc
              have hne : rem.drop 6 ≠ [] := findSub_ne_nil (by decide) hfv
              exact take_ne_nil hi1 hne
        · rw [if_neg hi1]
          intro h
          exact ih _ _ _ _ _ _ hfs hks h
    · rw [if_neg hkp] at h
      revert h
      cases hfk : findSub KEY rem with
      | some i1 =>
        simp only []
        by_cases hi1 : i1 ≠ 0
        · rw [if_pos hi1]
          cases hesc : handle_escapes (rem.take i1) with
          | error e => intro h; exact absurd h (by simp)
          | ok sep =>
            intro h
            refine ih _ _ _ _ _ _ ?_ hks h
            intro s hs
            rcases List.mem_append.mp hs with h1 | h2
            · exact hfs s h1
            · have hsep : s = sep := by simpa using h2
              subst hsep
              refine handle_escapes_ok_ne_nil ?_ hesc
              have hne : rem ≠ [] := findSub_ne_nil (by decide) hfk
              exact take_ne_nil hi1 hne
        · rw [if_neg hi1]
          intro h
          exact ih _ _ _ _ _ _ hfs hks h
      | none =>
        by_cases hemp : rem.isEmpty
        · rw [if_pos hemp]
          intro h
          injection h with h
          injection h with h1 h2
          subst h1
          subst h2
          exact ⟨hfs, hks⟩
        · rw [if_neg hemp]
          cases hesc : handle_escapes rem with
          | error e => intro h; exact absurd h (by simp)
          | ok sep =>
            intro h
            injection h with h
            injection h with h1 h2
            subst h1
            subst h2
            refine ⟨?_, hks⟩
            intro s hs
            rcases List.mem_append.mp hs with h1 | h2
            · exact hfs s h1
            · have hsep : s = sep := by simpa using h2
              subst hsep
              refine handle_escapes_ok_ne_nil ?_ hesc
              intro hnil
              rw [hnil] at hemp
              exact hemp rfl

theorem compile_ok_cases {t : Str} {p : Pattern} (h : Pattern.compile t = .ok p) :
    ∃ fs0 ks0, scanRaw t = .ok (fs0, ks0) ∧
      p.field_seperators = dedupAdj (sortSeps (if fs0.isEmpty then [[' ']] else fs0)) ∧
      p.key_seperators = dedupAdj (sortSeps (if ks0.isEmpty then [[':']] else ks0)) ∧
      findDouble p.field_seperators p.key_seperators = none := by
  unfold Pattern.compile scanPattern at h
  revert h
  cases hsr : scanRaw t with
  | error e => intro h; exact absurd h (by simp)
  | ok pr =>
    obtain ⟨fs0, ks0⟩ := pr
    simp only []
    cases hfd : findDouble (dedupAdj (sortSeps (if fs0.isEmpty then [[' ']] else fs0)))
        (dedupAdj (sortSeps (if ks0.isEmpty then [[':']] else ks0))) with
    | some s => intro h; exact absurd h (by simp)
    | none =>
      intro h
      injection h with h
      exact ⟨fs0, ks0, rfl, by rw [← h], by rw [← h], by rw [← h]; exact hfd⟩

theorem normalized_props (l : List Str) (dflt : Str) (hd : dflt ≠ [])
    (hl : ∀ s ∈ l, s ≠ ([] : Str)) :
    dedupAdj (sortSeps (if l.isEmpty then [dflt] else l)) ≠ [] ∧
    (dedupAdj (sortSeps (if l.isEmpty then [dflt] else l))).Pairwise
      (fun a b => lexLe a b = true) ∧
    (dedupAdj (sortSeps (if l.isEmpty then [dflt] else l))).Nodup ∧
    [] ∉ dedupAdj (sortSeps (if l.isEmpty then [dflt] else l)) := by
  have h1 : (if l.isEmpty then [dflt] else l) ≠ [] := by
    by_cases he : l.isEmpty
    · rw [if_pos he]; simp
    · rw [if_neg he]
      intro hc
      rw [hc] at he
      exact he rfl
  have h2 : ∀ s ∈ (if l.isEmpty then [dflt] else l), s ≠ ([] : Str) := by
    by_cases he : l.isEmpty
    · rw [if_pos he]
      intro s hs
      have : s = dflt := by simpa using hs
      rw [this]
      exact hd
    · rw [if_neg he]
      exact hl
  have hstrict := pairwise_dedupAdj (sortSeps (if l.isEmpty then [dflt] else l))
    (pairwise_sortSeps (if l.isEmpty then [dflt] else l))
  refine ⟨dedupAdj_ne_nil _ (sortSeps_ne_nil _ h1), hstrict.imp (fun hab => hab.1),
    hstrict.imp (fun hab => hab.2), ?_⟩
  intro hmem
  have := (mem_sortSeps _ _).mp ((mem_dedupAdj _ _).mp hmem)
  exact h2 [] this rfl

/-- C7: every pattern returned by a successful compile has both separator
lists nonempty, sorted in lexicographic order, free of duplicate entries,
and free of the empty string. -/
theorem compile_invariants (t : Str) (p : Pattern) (h : Pattern.compile t = .ok p) :
    (p.field_seperators ≠ [] ∧
      p.field_seperators.Pairwise (fun a b => lexLe a b = true) ∧
      p.field_seperators.Nodup ∧ [] ∉ p.field_seperators) ∧
    (p.key_seperators ≠ [] ∧
      p.key_seperators.Pairwise (fun a b => lexLe a b = true) ∧
      p.key_seperators.Nodup ∧ [] ∉ p.key_seperators) := by
  obtain ⟨fs0, ks0, hsr, hf, hk, _⟩ := compile_ok_cases h
  have hinv := scanLoop_ne_nil (t.length + 1) t 0 [] [] fs0 ks0 (by simp) (by simp) hsr
  constructor
  · rw [hf]
    exact normalized_props fs0 [' '] (by simp) hinv.1
  · rw [hk]
    exact normalized_props ks0 [':'] (by simp) hinv.2

/-- Witness for C7 at the empty template. -/
theorem compile_invariants_witness :
    Pattern.compile [] = .ok Pattern.default ∧
    ((Pattern.default.field_seperators ≠ [] ∧
      Pattern.default.field_seperators.Pairwise (fun a b => lexLe a b = true) ∧
      Pattern.default.field_seperators.Nodup ∧ [] ∉ Pattern.default.field_seperators) ∧
     (Pattern.default.key_seperators ≠ [] ∧
      Pattern.default.key_seperators.Pairwise (fun a b => lexLe a b = true) ∧
      Pattern.default.key_seperators.Nodup ∧ [] ∉ Pattern.default.key_seperators)) :=
  ⟨by decide, compile_invariants [] Pattern.default (by decide)⟩

/-! Double-separator detection. -/

theorem findDouble_none {fs ks : List Str} (h : findDouble fs ks = none) :
    (∀ x ∈ fs, ∀ y ∈ ks, ¬x <:+: y) ∧
    (∀ x ∈ fs, ∀ y ∈ fs, y ≠ x → ¬x <:+: y) ∧
    (∀ y ∈ ks, ∀ x ∈ fs, ¬y <:+: x) ∧
    (∀ y ∈ ks, ∀ z ∈ ks, z ≠ y → ¬y <:+: z) := by
  unfold findDouble at h
  revert h
  cases h1 : fs.find? (fun f => ks.any (fun k => decide (f <:+: k)) ||
      fs.any (fun f2 => decide (f2 ≠ f) && decide (f <:+: f2))) with
  | some f => intro h; exact absurd h (by simp)
  | none =>
    intro h2
    rw [List.find?_eq_none] at h1 h2
    simp only [Bool.or_eq_true, List.any_eq_true, decide_eq_true_eq, Bool.and_eq_true,
      not_or, not_exists, not_and] at h1 h2
    refine ⟨?_, ?_, ?_, ?_⟩
    · intro x hx y hy
      exact (h1 x hx).1 y hy
    · intro x hx y hy hne
      exact (h1 x hx).2 y hy hne
    · intro y hy x hx
      exact (h2 y hy).1 x hx
    · intro y hy z hz hne
      exact (h2 y hy).2 z hz hne

/-- C3: whenever the scan (after defaulting, sorting and deduplication)
produces a field separator and a key separator one of which is a substring
of the other, or two distinct separators in the same list one of which is a
substring of the other, compile fails with a DoubleSeperator error. -/
theorem compile_double_seperator (t : Str) (fs ks : List Str)
    (hscan : scanPattern t = .ok (fs, ks))
    (hviol : (∃ x ∈ fs, ∃ y ∈ ks, x <:+: y ∨ y <:+: x) ∨
             (∃ x ∈ fs, ∃ y ∈ fs, x ≠ y ∧ x <:+: y) ∨
             (∃ x ∈ ks, ∃ y ∈ ks, x ≠ y ∧ x <:+: y)) :
    ∃ s, Pattern.compile t = .error (.DoubleSeperator s) := by
  unfold Pattern.compile
  rw [hscan]
  simp only []
  cases hfd : findDouble fs ks with
  | some s => exact ⟨s, rfl⟩
  | none =>
    exfalso
    obtain ⟨hc1, hc2, hc3, hc4⟩ := findDouble_none hfd
    rcases hviol with ⟨x, hx, y, hy, hxy | hyx⟩ | ⟨x, hx, y, hy, hne, hxy⟩ |
        ⟨x, hx, y, hy, hne, hxy⟩
    · exact hc1 x hx y hy hxy
    · exact hc3 y hy x hx hyx
    · exact hc2 x hx y hy (fun hc => hne hc.symm) hxy
    · exact hc4 x hx y hy (fun hc => hne hc.symm) hxy

/-- Witness for C3 at the template key-space-val-space, whose field and key
separator are both the single space. -/
theorem compile_double_seperator_witness :
    scanPattern (KEY ++ [' '] ++ VAL ++ [' ']) = .ok ([[' ']], [[' ']]) ∧
    (∃ s, Pattern.compile (KEY ++ [' '] ++ VAL ++ [' ']) =
      .error (.DoubleSeperator s)) :=
  ⟨by decide, compile_double_seperator _ [[' ']] [[' ']] (by decide)
    (Or.inl ⟨[' '], by decide, [' '], by decide, Or.inl (by decide)⟩)⟩

/-! Order-independence of multi-separator splitting for single characters. -/

theorem splitPred_cons_pos {p : Char → Bool} {c : Char} (cs : Str) (hp : p c = true) :
    splitPred p (c :: cs) = [] :: splitPred p cs := by
  simp [splitPred, hp]

theorem splitPred_cons_neg {p : Char → Bool} {c : Char} {cs t : Str} {ts : List Str}
    (hp : p c = false) (hcs : splitPred p cs = t :: ts) :
    splitPred p (c :: cs) = (c :: t) :: ts := by
  simp [splitPred, hp, hcs]

theorem splitPred_ne_nil (p : Char → Bool) : ∀ s : Str, splitPred p s ≠ [] := by
  intro s
  induction s with
  | nil => simp [splitPred]
  | cons c cs ih =>
    by_cases hp : p c
    · rw [splitPred_cons_pos cs hp]
      simp
    · obtain ⟨t, ts, hts⟩ := List.exists_cons_of_ne_nil ih
      rw [splitPred_cons_neg (by simpa using hp) hts]
      simp

theorem splitPred_cons_exists (p : Char → Bool) (s : Str) :
    ∃ t ts, splitPred p s = t :: ts :=
  List.exists_cons_of_ne_nil (splitPred_ne_nil p s)

theorem splitPred_flatMap (p q : Char → Bool) : ∀ s : Str,
    (splitPred p s).flatMap (splitPred q) = splitPred (fun c => p c || q c) s := by
  intro s
  induction s with
  | nil => simp [splitPred]
  | cons c cs ih =>
    by_cases hp : p c
    · rw [splitPred_cons_pos cs hp, splitPred_cons_pos cs (by simp [hp])]
      simp only [List.flatMap_cons]
      rw [ih]
      rfl
    · have hp' : p c = false := by simpa using hp
      obtain ⟨t, ts, hts⟩ := splitPred_cons_exists p cs
      rw [splitPred_cons_neg hp' hts]
      rw [hts] at ih
      simp only [List.flatMap_cons] at ih
      by_cases hq : q c
      · rw [splitPred_cons_pos cs (by simp [hp', hq])]
        simp only [List.flatMap_cons]
        rw [splitPred_cons_pos t hq]
        rw [← ih]
        rfl
      · have hq' : q c = false := by simpa using hq
        obtain ⟨t1, ts1, hts1⟩ := splitPred_cons_exists q t
        obtain ⟨u, us, hus⟩ := splitPred_cons_exists (fun c => p c || q c) cs
        rw [hus] at ih
        rw [splitPred_cons_neg (by simp [hp', hq']) hus]
        simp only [List.flatMap_cons]
        rw [splitPred_cons_neg hq' hts1]
        rw [hts1] at ih
        simp only [List.cons_append] at ih
        injection ih with ih1 ih2
        rw [ih1]
        exact congrArg (fun l => (c :: u) :: l) ih2

theorem splitPred_false : ∀ s : Str, splitPred (fun _ => false) s = [s] := by
  intro s
  induction s with
  | nil => rfl
  | cons c cs ih => rw [splitPred_cons_neg rfl ih]

theorem isPrefixOf_single (c d : Char) (ds : Str) :
    List.isPrefixOf [c] (d :: ds) = (c == d) := by
  simp [List.isPrefixOf]

theorem splitGo_single (c : Char) :
    ∀ (fuel : Nat) (s : Str), s.length ≤ fuel →
      splitGo [c] fuel s = splitPred (fun x => x == c) s := by
  intro fuel
  induction fuel with
  | zero =>
    intro s hs
    have : s = [] := List.eq_nil_of_length_eq_zero (Nat.le_zero.mp hs)
    subst this
    rfl
  | succ fuel ih =>
    intro s hs
    cases s with
    | nil => rfl
    | cons d ds =>
      by_cases hcd : c = d
      · subst hcd
        have hpre : List.isPrefixOf [c] (c :: ds) = true := by
          rw [isPrefixOf_single]
          simp
        unfold splitGo
        rw [if_pos hpre]
        have hlen : List.length [c] = 1 := rfl
        rw [hlen]
        simp only [List.drop_succ_cons, List.drop_zero]
        rw [ih ds (by simp at hs; omega)]
        rw [splitPred_cons_pos ds (by simp)]
      · have hpre : List.isPrefixOf [c] (d :: ds) = false := by
          rw [isPrefixOf_single]
          simp [hcd]
        unfold splitGo
        rw [if_neg (by simp [hpre])]
        obtain ⟨t, ts, hts⟩ := splitPred_cons_exists (fun x => x == c) ds
        rw [ih ds (by simp at hs; omega), hts]
        rw [splitPred_cons_neg (by simp; exact fun hc => hcd hc.symm) hts]

theorem rustSplit_single (c : Char) (s : Str) :
    rustSplit [c] s = splitPred (fun x => x == c) s := by
  unfold rustSplit
  rw [if_neg (by simp)]
  exact splitGo_single c s.length s le_rfl

theorem multi_split_singles : ∀ (seps : List Str), (∀ s ∈ seps, s.length = 1) →
    ∀ pieces : List Str,
    seps.foldl (fun i s => i.flatMap (fun e => rustSplit s e)) pieces =
      pieces.flatMap (splitPred (fun c => decide ([c] ∈ seps))) := by
  intro seps
  induction seps with
  | nil =>
    intro _ pieces
    have hfun : (fun c => decide ([c] ∈ ([] : List Str))) = (fun _ => false) := by
      funext c
      simp
    have hfn : (splitPred (fun _ : Char => false)) = (fun s => [s]) := funext splitPred_false
    rw [List.foldl_nil, hfun, hfn]
    simp
  | cons sp rest ih =>
    intro hsingle pieces
    have hsp : ∃ c, sp = [c] := by
      have h1 : sp.length = 1 := hsingle sp (by simp)
      cases sp with
      | nil => simp at h1
      | cons c cs =>
        cases cs with
        | nil => exact ⟨c, rfl⟩
        | cons c2 cs2 => simp at h1
    obtain ⟨c, hc⟩ := hsp
    subst hc
    rw [List.foldl_cons]
    rw [ih (fun s hs => hsingle s (by simp [hs])) (pieces.flatMap (fun e => rustSplit [c] e))]
    rw [List.flatMap_assoc]
    have hfun1 : (fun e => (rustSplit [c] e).flatMap
        (splitPred (fun x => decide ([x] ∈ rest)))) =
        (fun e => splitPred (fun x => (x == c) || decide ([x] ∈ rest)) e) := by
      funext e
      rw [rustSplit_single c e]
      exact splitPred_flatMap (fun x => x == c) (fun x => decide ([x] ∈ rest)) e
    rw [hfun1]
    have hfun2 : (fun x => (x == c) || decide ([x] ∈ rest)) =
        (fun x => decide ([x] ∈ ([c] :: rest))) := by
      funext x
      by_cases hx : x = c
      · simp [hx]
      · have : ([x] : Str) ≠ [c] := by simp [hx]
        simp [hx, this]
    rw [hfun2]

/-- Counterexample to C1 as stated: the separator lists containing just the
two-character separators ab and ba satisfy invariant I3 and are permutations
of each other, yet on the input abab the two orders produce different token
sets (the token a appears in one and not the other). -/
theorem multi_split_order_counterexample :
    List.Perm [['a', 'b'], ['b', 'a']] [['b', 'a'], ['a', 'b']] ∧
    InvariantI3 [['a', 'b'], ['b', 'a']] ∧
    InvariantI3 [['b', 'a'], ['a', 'b']] ∧
    multi_split "abab".data [['a', 'b'], ['b', 'a']] = [[], [], []] ∧
    multi_split "abab".data [['b', 'a'], ['a', 'b']] = [['a'], ['b']] ∧
    ['a'] ∈ multi_split "abab".data [['b', 'a'], ['a', 'b']] ∧
    ['a'] ∉ multi_split "abab".data [['a', 'b'], ['b', 'a']] := by decide

/-- C1 as amended: when every separator is a single character, two separator
lists that are permutations of each other and satisfy invariant I3 give the
multi-separator split the same set of result tokens on every input. -/
theorem multi_split_perm_single_char (input : Str) (l1 l2 : List Str)
    (hperm : l1.Perm l2) (hsingle : ∀ s ∈ l1, s.length = 1)
    (_h3a : InvariantI3 l1) (_h3b : InvariantI3 l2) :
    ∀ tok, tok ∈ multi_split input l1 ↔ tok ∈ multi_split input l2 := by
  have hsingle2 : ∀ s ∈ l2, s.length = 1 := fun s hs => hsingle s (hperm.mem_iff.mpr hs)
  have e1 := multi_split_singles l1 hsingle [input]
  have e2 := multi_split_singles l2 hsingle2 [input]
  have hfun : (fun c => decide ([c] ∈ l1)) = (fun c => decide ([c] ∈ l2)) := by
    funext c
    exact decide_eq_decide.mpr hperm.mem_iff
  intro tok
  unfold multi_split
  rw [e1, e2, hfun]

/-- Witness for the amended C1 at single-character separator lists in the
two orders. -/
theorem multi_split_perm_single_char_witness :
    List.Perm [[' '], [';']] [[';'], [' ']] ∧
    (∀ s ∈ [[' '], [';']], List.length s = 1) ∧
    InvariantI3 [[' '], [';']] ∧ InvariantI3 [[';'], [' ']] ∧
    (['a'] ∈ multi_split "a b;c".data [[' '], [';']] ↔
      ['a'] ∈ multi_split "a b;c".data [[';'], [' ']]) :=
  ⟨by decide, by decide, by decide, by decide,
    multi_split_perm_single_char "a b;c".data [[' '], [';']] [[';'], [' ']]
      (by decide) (by decide) (by decide) (by decide) ['a']⟩

/-! Marker occurrences cannot overlap: character-level analysis. -/

theorem prefix_getElem? {sub l : Str} (h : sub.isPrefixOf l) {j : Nat} (hj : j < sub.length) :
    l[j]? = sub[j]? := by
  obtain ⟨t, rfl⟩ := List.isPrefixOf_iff_prefix.mp h
  rw [List.getElem?_append, if_pos hj]

theorem isPrefixOf_length_le {a b : Str} (h : a.isPrefixOf b) : a.length ≤ b.length :=
  (List.isPrefixOf_iff_prefix.mp h).length_le

theorem keyAt_char {t : Str} {p : Nat} (h : keyAt t p) (j : Nat) (hj : j < 6) :
    t[p + j]? = KEY[j]? := by
  rw [← List.getElem?_drop]
  exact prefix_getElem? h (by simpa [KEY] using hj)

theorem valAt_char {t : Str} {v : Nat} (h : valAt t v) (j : Nat) (hj : j < 6) :
    t[v + j]? = VAL[j]? := by
  rw [← List.getElem?_drop]
  exact prefix_getElem? h (by simpa [VAL] using hj)

theorem valAt_le_length {t : Str} {v : Nat} (h : valAt t v) : v + 6 ≤ t.length := by
  have h1 := isPrefixOf_length_le h
  simp [VAL] at h1
  omega

theorem keyAt_le_length {t : Str} {p : Nat} (h : keyAt t p) : p + 6 ≤ t.length := by
  have h1 := isPrefixOf_length_le h
  simp [KEY] at h1
  omega

theorem key_val_no_overlap {t : Str} {p v : Nat} (hk : keyAt t p) (hv : valAt t v) :
    v + 6 ≤ p ∨ p + 6 ≤ v := by
  by_contra hcon
  push_neg at hcon
  obtain ⟨h1, h2⟩ := hcon
  rcases Nat.lt_trichotomy p v with hpv | hpv | hpv
  · have e1 : t[v]? = KEY[v - p]? := by
      have := keyAt_char hk (v - p) (by omega)
      rwa [Nat.add_sub_cancel' (le_of_lt hpv)] at this
    have e2 : t[v]? = VAL[0]? := by
      have := valAt_char hv 0 (by omega)
      simpa using this
    rw [e1] at e2
    have hd1 : 1 ≤ v - p := by omega
    have hd2 : v - p < 6 := by omega
    set d := v - p with hd
    interval_cases d <;> exact absurd e2 (by decide)
  · subst hpv
    have e1 : t[p + 2]? = KEY[2]? := keyAt_char hk 2 (by omega)
    have e2 : t[p + 2]? = VAL[2]? := valAt_char hv 2 (by omega)
    rw [e1] at e2
    exact absurd e2 (by decide)
  · have e1 : t[p]? = VAL[p - v]? := by
      have := valAt_char hv (p - v) (by omega)
      rwa [Nat.add_sub_cancel' (le_of_lt hpv)] at this
    have e2 : t[p]? = KEY[0]? := by
      have := keyAt_char hk 0 (by omega)
      simpa using this
    rw [e1] at e2
    have hd1 : 1 ≤ p - v := by omega
    have hd2 : p - v < 6 := by omega
    set d := p - v with hd
    interval_cases d <;> exact absurd e2 (by decide)

theorem keyAt_drop {t : Str} (o p : Nat) : keyAt (t.drop o) p ↔ keyAt t (o + p) := by
  unfold keyAt
  rw [List.drop_drop]

theorem valAt_drop {t : Str} (o v : Nat) : valAt (t.drop o) v ↔ valAt t (o + v) := by
  unfold valAt
  rw [List.drop_drop]

theorem unfollowed_drop {t : Str} (o p : Nat) :
    Unfollowed (t.drop o) p ↔ Unfollowed t (o + p) := by
  unfold Unfollowed
  rw [keyAt_drop]
  constructor
  · rintro ⟨hk, hv⟩
    refine ⟨hk, ?_⟩
    intro v hvlen hvge hval
    have hvo : o ≤ v := by omega
    have hlt : v - o < (t.drop o).length := by
      simp
      omega
    refine hv (v - o) hlt (by omega) ?_
    rw [valAt_drop]
    rwa [Nat.add_sub_cancel' hvo]
  · rintro ⟨hk, hv⟩
    refine ⟨hk, ?_⟩
    intro v hvlen hvge hval
    rw [valAt_drop] at hval
    have hvlen2 : o + v < t.length := by
      simp at hvlen
      omega
    exact hv (o + v) hvlen2 (by omega) hval

theorem firstUnfollowed_drop {t : Str} {o q : Nat} (h : FirstUnfollowed t q) (ho : o ≤ q) :
    FirstUnfollowed (t.drop o) (q - o) := by
  obtain ⟨hu, hmin⟩ := h
  constructor
  · rw [unfollowed_drop]
    rwa [Nat.add_sub_cancel' ho]
  · intro p' hp' hup'
    rw [unfollowed_drop] at hup'
    exact hmin (o + p') (by omega) hup'

theorem handle_escapes_error_cases :
    ∀ s : Str, ∀ e : Error, handle_escapes s = .error e →
      (∃ c, e = .InvalidEscape c) ∨ e = .UnterminatedEscape := by
  refine escInd (fun s => ∀ e : Error, handle_escapes s = .error e →
      (∃ c, e = .InvalidEscape c) ∨ e = .UnterminatedEscape) ?_ ?_ ?_ ?_
  · intro e h
    exact absurd h (by simp [handle_escapes])
  · intro e h
    rw [handle_escapes_lone_bs] at h
    injection h with h
    exact Or.inr h.symm
  · intro c rest ih e h
    cases hd : decodeEsc c with
    | none =>
      rw [handle_escapes_invalid1 rest hd] at h
      injection h with h
      exact Or.inl ⟨c, h.symm⟩
    | some d =>
      cases hrec : handle_escapes rest with
      | ok r1 =>
        rw [handle_escapes_esc_ok hd hrec] at h
        exact absurd h (by simp)
      | error e1 =>
        rw [handle_escapes_esc_err hd hrec] at h
        injection h with h
        rw [← h]
        exact ih e1 hrec
  · intro c rest hc ih e h
    cases hrec : handle_escapes rest with
    | ok r1 =>
      rw [handle_escapes_lit_ok hc hrec] at h
      exact absurd h (by simp)
    | error e1 =>
      rw [handle_escapes_lit_err hc hrec] at h
      injection h with h
      rw [← h]
      exact ih e1 hrec

theorem scanLoop_invalidPattern :
    ∀ (fuel : Nat) (rem : Str), rem.length < fuel →
      ∀ (i : Nat) (fs ks : List Str) (q : Nat), FirstUnfollowed rem q →
      scanLoop fuel rem i fs ks = .error (.InvalidPattern (i + q + 6)) ∨
      (∃ c, scanLoop fuel rem i fs ks = .error (.InvalidEscape c)) ∨
      scanLoop fuel rem i fs ks = .error .UnterminatedEscape := by
  intro fuel
  induction fuel with
  | zero =>
    intro rem h
    exact absurd h (by omega)
  | succ fuel ih =>
    intro rem hlen i fs ks q hq
    rw [scanLoop_succ]
    by_cases hkp : KEY.isPrefixOf rem
    · rw [if_pos hkp]
      have hrlen : 6 ≤ rem.length := by
        have := isPrefixOf_length_le hkp
        simpa [KEY] using this
      cases hfv : findSub VAL (rem.drop 6) with
      | none =>
        have hkey0 : keyAt rem 0 := by
          unfold keyAt
          simpa using hkp
        have hunf0 : Unfollowed rem 0 := by
          refine ⟨hkey0, ?_⟩
          intro v hvlen hv6 hval
          have hvd : valAt (rem.drop 6) (v - 6) := by
            rw [valAt_drop]
            rwa [Nat.add_sub_cancel' hv6]
          exact findSub_none hfv (v - 6) hvd
        have hq0 : q = 0 := by
          by_contra hq0
          exact hq.2 0 (by omega) hunf0
        subst hq0
        left
        rfl
      | some i1 =>
        simp only []
        have hvalrem : valAt rem (6 + i1) := by
          have h1 : valAt (rem.drop 6) i1 := findSub_some_prefix hfv
          rwa [valAt_drop] at h1
        have hvlen := valAt_le_length hvalrem
        have hqgt : i1 < q := by
          by_contra hle
          push_neg at hle
          exact hq.1.2 (6 + i1) (by omega) (by omega) hvalrem
        have hqoff : 6 + (i1 + 6) ≤ q := by
          rcases key_val_no_overlap hq.1.1 hvalrem with h1 | h1
          · omega
          · omega
        have hrem' : (rem.drop 6).drop (i1 + 6) = rem.drop (6 + (i1 + 6)) :=
          List.drop_drop (i1 + 6) 6 rem
        have hq' : FirstUnfollowed ((rem.drop 6).drop (i1 + 6)) (q - (6 + (i1 + 6))) := by
          rw [hrem']
          exact firstUnfollowed_drop hq hqoff
        have hlen' : ((rem.drop 6).drop (i1 + 6)).length < fuel := by
          simp only [List.length_drop]
          omega
        have harith : i + 6 + i1 + 6 + (q - (6 + (i1 + 6))) + 6 = i + q + 6 := by
          omega
        by_cases hi1 : i1 ≠ 0
        · rw [if_pos hi1]
          cases hesc : handle_escapes ((rem.drop 6).take i1) with
          | error e =>
            rcases handle_escapes_error_cases _ e hesc with ⟨c, rfl⟩ | rfl
            · right; left; exact ⟨c, rfl⟩
            · right; right; rfl
          | ok sep =>
            have hrec := ih ((rem.drop 6).drop (i1 + 6)) hlen' (i + 6 + i1 + 6) fs
              (ks ++ [sep]) (q - (6 + (i1 + 6))) hq'
            rw [harith] at hrec
            exact hrec
        · rw [if_neg hi1]
          have hrec := ih ((rem.drop 6).drop (i1 + 6)) hlen' (i + 6 + i1 + 6) fs ks
            (q - (6 + (i1 + 6))) hq'
          rw [harith] at hrec
          exact hrec
    · rw [if_neg hkp]
      cases hfk : findSub KEY rem with
      | none =>
        exact absurd hq.1.1 (findSub_none hfk q)
      | some i1 =>
        simp only []
        have hi1pos : i1 ≠ 0 := by
          intro h0
          subst h0
          have h1 := findSub_some_prefix hfk
          rw [List.drop_zero] at h1
          exact hkp h1
        have hqge : i1 ≤ q := by
          by_contra hlt
          push_neg at hlt
          exact findSub_some_min hfk q hlt hq.1.1
        have hkey1 : keyAt rem i1 := findSub_some_prefix hfk
        have hlen6 := keyAt_le_length hkey1
        have hlen' : (rem.drop i1).length < fuel := by
          simp only [List.length_drop]
          omega
        have hq' : FirstUnfollowed (rem.drop i1) (q - i1) := firstUnfollowed_drop hq hqge
        have harith : i + i1 + (q - i1) + 6 = i + q + 6 := by omega
        rw [if_pos hi1pos]
        cases hesc : handle_escapes (rem.take i1) with
        | error e =>
          rcases handle_escapes_error_cases _ e hesc with ⟨c, rfl⟩ | rfl
          · right; left; exact ⟨c, rfl⟩
          · right; right; rfl
        | ok sep =>
          have hrec := ih (rem.drop i1) hlen' (i + i1) (fs ++ [sep]) ks (q - i1) hq'
          rw [harith] at hrec
          exact hrec

theorem compile_error_of_scanRaw {t : Str} {e : Error} (h : scanRaw t = .error e) :
    Pattern.compile t = .error e := by
  unfold Pattern.compile scanPattern
  rw [h]

/-- Counterexample to C5 as stated: the template backslash-8 followed by a
key marker has a key marker with no val marker after it, yet compile fails
with InvalidEscape (the field-separator literal before the marker fails
escape processing first), not with InvalidPattern. -/
theorem compile_invalid_pattern_counterexample :
    FirstUnfollowed (['\\', '8'] ++ KEY) 2 ∧
    Pattern.compile (['\\', '8'] ++ KEY) = .error (.InvalidEscape '8') := by decide

/-- C5 as amended: if the first key marker of the template with no val
marker anywhere after it sits at position q, compile fails with
InvalidPattern at q + 6 (the cursor just after that marker) unless a
separator literal scanned on the way fails escape processing, in which case
compile fails with that escape error instead. -/
theorem compile_invalid_pattern (t : Str) (q : Nat) (h : FirstUnfollowed t q) :
    Pattern.compile t = .error (.InvalidPattern (q + 6)) ∨
    (∃ c, Pattern.compile t = .error (.InvalidEscape c)) ∨
    Pattern.compile t = .error .UnterminatedEscape := by
  have hs := scanLoop_invalidPattern (t.length + 1) t (by omega) 0 [] [] q h
  rcases hs with h1 | ⟨c, h2⟩ | h3
  · left
    rw [Nat.zero_add] at h1
    exact compile_error_of_scanRaw h1
  · right; left
    exact ⟨c, compile_error_of_scanRaw h2⟩
  · right; right
    exact compile_error_of_scanRaw h3

/-- Witness for the amended C5 at the template consisting of the key marker
followed by one literal character. -/
theorem compile_invalid_pattern_witness :
    FirstUnfollowed (KEY ++ ['x']) 0 ∧
    (Pattern.compile (KEY ++ ['x']) = .error (.InvalidPattern (0 + 6)) ∨
     (∃ c, Pattern.compile (KEY ++ ['x']) = .error (.InvalidEscape c)) ∨
     Pattern.compile (KEY ++ ['x']) = .error .UnterminatedEscape) :=
  ⟨by decide, compile_invalid_pattern (KEY ++ ['x']) 0 (by decide)⟩
